import Mathlib

/-!
Shallow embedding of the object-storage proxy and transfer protocol of the
share-simple-send repository:

* `src/supabase/functions/storj-operations/index.ts` — the transfer proxy
  (`serve` dispatch, `createStorjClient`, `deleteAllVersions`);
* `src/src/lib/storj.ts` — the client transfer agent (`storjService.uploadFile`,
  `storjService.downloadFile`).

JavaScript strings are modelled as `List Char`; byte buffers (`Uint8Array`) as
`List Nat` whose elements are below 256; the S3-compatible backing store as a
list of version records.  Calls issued to the backing store are reified as a
trace of `StoreOp` values, and the store-side effect of a trace is given by
`applyOp` (delete calls remove the matching records; listing is read-only).
-/

/-- The byte string `uint8Array` traversed by `uploadFile`, and generic chunk
splitting: `chunksListN n l` splits `l` into consecutive runs of `n + 1`
elements (the final run may be shorter).  The fuel argument of the auxiliary
function is the length of the remaining list, so the definition is structural
and computable by the kernel. -/
def chunksAux (fuel : Nat) (n : Nat) : List α → List (List α)
  | [] => []
  | x :: xs =>
    match fuel with
    | 0 => [x :: xs]
    | fuel + 1 => (x :: xs).take (n + 1) :: chunksAux fuel n ((x :: xs).drop (n + 1))

/-- Splits a list into consecutive chunks of `n + 1` elements, matching the
`for (let i = 0; i < length; i += chunkSize)` / `slice(i, i + chunkSize)`
pattern used both in `uploadFile` (chunkSize 65536) and in the
`DeleteObjects` batching loop of `deleteAllVersions` (chunkSize 1000). -/
def chunksListN (n : Nat) (l : List α) : List (List α) :=
  chunksAux l.length n l

theorem chunksAux_join (n : Nat) :
    ∀ (fuel : Nat) (l : List α), l.length ≤ fuel → (chunksAux fuel n l).flatten = l := by
  intro fuel
  induction fuel with
  | zero =>
    intro l hl
    cases l with
    | nil => simp [chunksAux]
    | cons x xs => simp at hl
  | succ fuel ih =>
    intro l hl
    cases l with
    | nil => simp [chunksAux]
    | cons x xs =>
      have hdrop : ((x :: xs).drop (n + 1)).length ≤ fuel := by
        simp only [List.length_drop, List.length_cons]
        simp only [List.length_cons] at hl
        omega
      simp only [chunksAux, List.flatten_cons, ih _ hdrop]
      exact List.take_append_drop (n + 1) (x :: xs)

theorem chunksListN_join (n : Nat) (l : List α) : (chunksListN n l).flatten = l :=
  chunksAux_join n l.length l le_rfl

theorem chunksAux_mem_length (n : Nat) :
    ∀ (fuel : Nat) (l c : List α), l.length ≤ fuel → c ∈ chunksAux fuel n l →
      c.length ≤ n + 1 := by
  intro fuel
  induction fuel with
  | zero =>
    intro l c hl hc
    cases l with
    | nil => simp [chunksAux] at hc
    | cons x xs => simp at hl
  | succ fuel ih =>
    intro l c hl hc
    cases l with
    | nil => simp [chunksAux] at hc
    | cons x xs =>
      simp only [chunksAux, List.mem_cons] at hc
      rcases hc with hc | hc
      · subst hc
        simpa using List.length_take_le (n + 1) (x :: xs)
      · have hdrop : ((x :: xs).drop (n + 1)).length ≤ fuel := by
          simp only [List.length_drop, List.length_cons]
          simp only [List.length_cons] at hl
          omega
        exact ih _ c hdrop hc

theorem chunksListN_mem_length (n : Nat) (l c : List α) (hc : c ∈ chunksListN n l) :
    c.length ≤ n + 1 :=
  chunksAux_mem_length n l.length l c le_rfl hc

theorem chunksListN_short_of_le_one (n : Nat) (l : List α)
    (h : (chunksListN n l).length ≤ 1) : l.length ≤ n + 1 := by
  have hj := chunksListN_join n l
  match hch : chunksListN n l with
  | [] =>
    rw [hch] at hj
    simp at hj
    simp [hj]
  | [c] =>
    rw [hch] at hj
    simp at hj
    have hcl := chunksListN_mem_length n l c (by rw [hch]; exact List.mem_singleton_self c)
    exact hj ▸ hcl
  | c₁ :: c₂ :: rest =>
    rw [hch] at h
    simp at h

/-- The standard base64 alphabet as ASCII codes: `A-Z`, `a-z`, `0-9`, `+`, `/`.
This is the alphabet used both by the browser's `btoa` (client encode in
`storjService.uploadFile`) and by the deno std `encoding/base64` module
(`base64Decode` in the proxy's `upload` case). -/
def b64Alphabet : List Nat :=
  [65, 66, 67, 68, 69, 70, 71, 72, 73, 74, 75, 76, 77, 78, 79, 80, 81, 82,
   83, 84, 85, 86, 87, 88, 89, 90,
   97, 98, 99, 100, 101, 102, 103, 104, 105, 106, 107, 108, 109, 110, 111,
   112, 113, 114, 115, 116, 117, 118, 119, 120, 121, 122,
   48, 49, 50, 51, 52, 53, 54, 55, 56, 57, 43, 47]

/-- Character of the base64 alphabet at index `n` (`n < 64`). -/
def b64Char (n : Nat) : Nat := b64Alphabet.getD n 0

/-- Index of a base64 character in the alphabet (inverse of `b64Char`). -/
def b64Index (c : Nat) : Nat := b64Alphabet.indexOf c

theorem b64Index_b64Char : ∀ n, n < 64 → b64Index (b64Char n) = n := by decide

theorem b64Char_ne_pad : ∀ n, n < 64 → b64Char n ≠ 61 := by decide

/-- Base64 encoding of a byte sequence (ASCII codes of the output text),
with `=` (code 61) padding — the `btoa` step of `storjService.uploadFile`. -/
def base64EncodeCore : List Nat → List Nat
  | [] => []
  | [a] => [b64Char (a / 4), b64Char (a % 4 * 16), 61, 61]
  | [a, b] => [b64Char (a / 4), b64Char (a % 4 * 16 + b / 16), b64Char (b % 16 * 4), 61]
  | a :: b :: c :: rest =>
    b64Char (a / 4) :: b64Char (a % 4 * 16 + b / 16) :: b64Char (b % 16 * 4 + c / 64)
      :: b64Char (c % 64) :: base64EncodeCore rest

/-- Base64 decoding of a text (given as ASCII codes) back to bytes — the
`base64Decode` step of the proxy's `upload` case. -/
def base64DecodeCore : List Nat → List Nat
  | c1 :: c2 :: c3 :: c4 :: rest =>
    let i1 := b64Index c1
    let i2 := b64Index c2
    if c3 = 61 then [i1 * 4 + i2 / 16]
    else
      let i3 := b64Index c3
      if c4 = 61 then [i1 * 4 + i2 / 16, i2 % 16 * 16 + i3 / 4]
      else (i1 * 4 + i2 / 16) :: (i2 % 16 * 16 + i3 / 4) :: (i3 % 4 * 64 + b64Index c4)
        :: base64DecodeCore rest
  | _ => []

theorem base64_roundtrip :
    ∀ l : List Nat, (∀ x ∈ l, x < 256) →
      base64DecodeCore (base64EncodeCore l) = l := by
  intro l
  induction l using base64EncodeCore.induct with
  | case1 =>
    intro _
    rfl
  | case2 a =>
    intro h
    have ha : a < 256 := h a (by simp)
    have h2 : a % 4 * 16 < 64 := by omega
    simp only [base64EncodeCore, base64DecodeCore, if_true,
      b64Index_b64Char _ (by omega : a / 4 < 64), b64Index_b64Char _ h2,
      List.cons.injEq, and_true]
    omega
  | case3 a b =>
    intro h
    have ha : a < 256 := h a (by simp)
    have hb : b < 256 := h b (by simp)
    have h2 : a % 4 * 16 + b / 16 < 64 := by omega
    have h3 : b % 16 * 4 < 64 := by omega
    simp only [base64EncodeCore, base64DecodeCore]
    rw [if_neg (b64Char_ne_pad _ h3)]
    simp only [if_true, b64Index_b64Char _ (by omega : a / 4 < 64),
      b64Index_b64Char _ h2, b64Index_b64Char _ h3, List.cons.injEq, and_true]
    exact ⟨by omega, by omega⟩
  | case4 a b c rest ih =>
    intro h
    have ha : a < 256 := h a (by simp)
    have hb : b < 256 := h b (by simp)
    have hc : c < 256 := h c (by simp)
    have h2 : a % 4 * 16 + b / 16 < 64 := by omega
    have h3 : b % 16 * 4 + c / 64 < 64 := by omega
    have h4 : c % 64 < 64 := by omega
    simp only [base64EncodeCore, base64DecodeCore]
    rw [if_neg (b64Char_ne_pad _ h3), if_neg (b64Char_ne_pad _ h4)]
    rw [b64Index_b64Char _ (by omega : a / 4 < 64), b64Index_b64Char _ h2,
      b64Index_b64Char _ h3, b64Index_b64Char _ h4]
    rw [ih (fun x hx => h x (by simp [hx]))]
    simp only [List.cons.injEq, and_true]
    exact ⟨by omega, by omega, by omega⟩

/-- The binary string built by `storjService.uploadFile`: the byte buffer is
traversed in 65536-byte chunks (`slice(i, i + chunkSize)`) and each chunk is
appended via `String.fromCharCode(...chunk)`; the resulting character-code
sequence is the concatenation of the chunks. -/
def uploadBinaryString (bytes : List Nat) : List Nat :=
  (chunksListN 65535 bytes).flatten

/-- The text produced by the client agent for the `fileData` field of an
`upload` envelope: `btoa(binaryString)` applied to the chunk-assembled
binary string (ASCII codes of the base64 text). -/
def uploadEncode (bytes : List Nat) : List Nat :=
  base64EncodeCore (uploadBinaryString bytes)

/-- C2: for every byte sequence `B` (elements < 256, i.e. `Uint8Array`
contents), including the empty sequence and sequences crossing multiple
65536-byte chunk boundaries, the proxy-side `base64Decode` of the client
agent's chunk-assembled `btoa` output is exactly `B`. -/
theorem upload_roundtrip_c2 (B : List Nat) (hB : ∀ x ∈ B, x < 256) :
    base64DecodeCore (uploadEncode B) = B := by
  unfold uploadEncode uploadBinaryString
  rw [chunksListN_join]
  exact base64_roundtrip B hB

theorem upload_roundtrip_c2_witness :
    (∀ x ∈ [0, 61, 255, 128, 7], x < 256) ∧
      base64DecodeCore (uploadEncode [0, 61, 255, 128, 7]) = [0, 61, 255, 128, 7] :=
  ⟨by decide, upload_roundtrip_c2 [0, 61, 255, 128, 7] (by decide)⟩

/-- JavaScript strings (object keys, version ids) as character lists. -/
abbrev JStr := List Char

/-- Character list of a Lean string literal. -/
def s2l (s : String) : JStr := s.data

/-- One record of the backing store's `ListObjectVersions` output: an object
version or a delete-marker.  `versionId` is `none` when the store reports no
version id for the record (JS `undefined`). -/
structure VRecord where
  key : JStr
  versionId : Option JStr
  isDeleteMarker : Bool
deriving DecidableEq, Repr

/-- JS truthiness of an optional string (`undefined` and `""` are falsy) —
the `v.VersionId` checks in `deleteAllVersions` and the credential checks in
`createStorjClient`. -/
def truthy : Option JStr → Bool
  | some s => !s.isEmpty
  | none => false

/-- A call issued by the proxy to the backing store, reified for trace
reasoning. -/
inductive StoreOp where
  | listCall : StoreOp
  | deleteObject : JStr → StoreOp
  | deleteBatch : List (JStr × JStr) → StoreOp
  | putObject : JStr → List Nat → StoreOp
  | getObject : JStr → StoreOp
  | presign : JStr → StoreOp
deriving DecidableEq, Repr

/-- The paginated `ListObjectVersions` responses for a prefix: the store
returns the records whose key has the requested prefix, split into pages of
at most `pageSize + 1` records (the continuation-token loop of
`deleteAllVersions` consumes one page per iteration). -/
def pagesOf (pageSize : Nat) (store : List VRecord) (key : JStr) : List (List VRecord) :=
  chunksListN pageSize (store.filter (fun r => key.isPrefixOf r.key))

/-- The `(Key, VersionId)` pairs pushed onto `objectsToDelete` for one page:
`list.Versions` entries first, then `list.DeleteMarkers` entries, each
filtered by `v.Key === key && v.VersionId` (defensive exact-match filter). -/
def pageCollect (key : JStr) (page : List VRecord) : List (JStr × JStr) :=
  (((page.filter (fun r => !r.isDeleteMarker)).filter
      (fun r => r.key == key && truthy r.versionId))
    ++ ((page.filter (fun r => r.isDeleteMarker)).filter
      (fun r => r.key == key && truthy r.versionId))).filterMap
    (fun r => r.versionId.map (fun v => (key, v)))

/-- Contents of `objectsToDelete` after the pagination loop of `deleteAllVersions` has
consumed every page. -/
def accumulate (key : JStr) (pages : List (List VRecord)) : List (JStr × JStr) :=
  pages.foldl (fun acc page => acc ++ pageCollect key page) []

/-- The sequence of backing-store calls issued by `deleteAllVersions`:
all `ListObjectVersions` pages first; then, if `objectsToDelete` is empty, a
single non-versioned `DeleteObject`; otherwise one `DeleteObjects` batch per
1000-element chunk of `objectsToDelete`. -/
def deleteAllVersionsTrace (pageSize : Nat) (store : List VRecord) (key : JStr) :
    List StoreOp :=
  let pages := pagesOf pageSize store key
  let objectsToDelete := accumulate key pages
  (pages.map (fun _ => StoreOp.listCall)) ++
    (if objectsToDelete.isEmpty then [StoreOp.deleteObject key]
     else (chunksListN 999 objectsToDelete).map StoreOp.deleteBatch)

/-- Whether a batch entry `(Key, VersionId)` addresses record `r`. -/
def matchesPair (r : VRecord) (pr : JStr × JStr) : Bool :=
  pr.1 == r.key && r.versionId == some pr.2

/-- Effect of one backing-store call on the store contents: a versioned batch
delete removes exactly the addressed `(key, versionId)` records; a
non-versioned `DeleteObject` removes the records of the key that carry no
version id (unversioned-bucket semantics); listing, reads and presigning do
not mutate the store; `putObject` content is outside this model. -/
def applyOp (store : List VRecord) : StoreOp → List VRecord
  | StoreOp.listCall => store
  | StoreOp.deleteObject k => store.filter (fun r => !(r.key == k && !truthy r.versionId))
  | StoreOp.deleteBatch b => store.filter (fun r => !(b.any (matchesPair r)))
  | StoreOp.putObject _ _ => store
  | StoreOp.getObject _ => store
  | StoreOp.presign _ => store

/-- Store contents after `deleteAllVersions(client, bucket, key)` has run all
of its backing-store calls. -/
def deleteAllVersionsRun (pageSize : Nat) (store : List VRecord) (key : JStr) :
    List VRecord :=
  (deleteAllVersionsTrace pageSize store key).foldl applyOp store

/-- The result of listing the versions and delete-markers of exactly `key`
after the fact (what the spec calls `listVersions(key)` for one key). -/
def listVersionsExact (store : List VRecord) (key : JStr) : List VRecord :=
  store.filter (fun r => r.key == key)

theorem isPrefixOf_self (l : JStr) : l.isPrefixOf l = true := by
  induction l with
  | nil => rfl
  | cons a as ih => simp [List.isPrefixOf, ih]

theorem foldl_listCalls (s : List VRecord) (L : List α) :
    (L.map (fun _ => StoreOp.listCall)).foldl applyOp s = s := by
  induction L generalizing s with
  | nil => rfl
  | cons x xs ih => simpa [applyOp] using ih s

theorem foldl_deleteBatches (bs : List (List (JStr × JStr))) (s : List VRecord) :
    (bs.map StoreOp.deleteBatch).foldl applyOp s =
      s.filter (fun r => !(bs.any (fun b => b.any (matchesPair r)))) := by
  induction bs generalizing s with
  | nil => simp
  | cons b rest ih =>
    simp only [List.map_cons, List.foldl_cons, applyOp, ih, List.filter_filter]
    apply List.filter_congr
    intro r _
    simp only [List.any_cons]
    cases hb : b.any (matchesPair r) <;> cases hr : rest.any (fun c => c.any (matchesPair r)) <;>
      simp [hb, hr]

theorem accumulate_eq_flatten (key : JStr) (pages : List (List VRecord)) :
    accumulate key pages = (pages.map (pageCollect key)).flatten := by
  have haux : ∀ (ps : List (List VRecord)) (acc : List (JStr × JStr)),
      ps.foldl (fun acc page => acc ++ pageCollect key page) acc =
        acc ++ (ps.map (pageCollect key)).flatten := by
    intro ps
    induction ps with
    | nil => intro acc; simp
    | cons q qs ih =>
      intro acc
      simp [ih, List.append_assoc]
  simpa using haux pages []

theorem pageCollect_fst (key : JStr) (page : List VRecord) :
    ∀ pr ∈ pageCollect key page, pr.1 = key := by
  intro pr hpr
  simp only [pageCollect, List.mem_filterMap] at hpr
  obtain ⟨r, _, hr⟩ := hpr
  cases hv : r.versionId with
  | none => rw [hv] at hr; simp [Option.map] at hr
  | some v =>
    rw [hv] at hr
    simp only [Option.map] at hr
    cases hr
    rfl

theorem accumulate_fst (key : JStr) (pages : List (List VRecord)) :
    ∀ pr ∈ accumulate key pages, pr.1 = key := by
  intro pr hpr
  rw [accumulate_eq_flatten] at hpr
  rw [List.mem_flatten] at hpr
  obtain ⟨l, hl, hprl⟩ := hpr
  rw [List.mem_map] at hl
  obtain ⟨page, _, hpage⟩ := hl
  exact pageCollect_fst key page pr (hpage ▸ hprl)

theorem mem_pageCollect_of_mem (key : JStr) (page : List VRecord) (r : VRecord)
    (hr : r ∈ page) (hk : r.key = key) (v : JStr) (hv : r.versionId = some v)
    (htr : truthy r.versionId = true) : (key, v) ∈ pageCollect key page := by
  simp only [pageCollect, List.mem_filterMap]
  refine ⟨r, ?_, by rw [hv]; rfl⟩
  rw [List.mem_append]
  cases hm : r.isDeleteMarker
  · left
    simp only [List.mem_filter]
    exact ⟨⟨hr, by simp [hm]⟩, by simp [hk, htr]⟩
  · right
    simp only [List.mem_filter]
    exact ⟨⟨hr, by simp [hm]⟩, by simp [hk, htr]⟩

theorem mem_accumulate_of_mem_store (pageSize : Nat) (store : List VRecord)
    (key : JStr) (r : VRecord) (hr : r ∈ store) (hk : r.key = key)
    (htr : truthy r.versionId = true) :
    ∃ v, r.versionId = some v ∧
      (key, v) ∈ accumulate key (pagesOf pageSize store key) := by
  obtain ⟨v, hv⟩ : ∃ v, r.versionId = some v := by
    cases hvv : r.versionId with
    | none => rw [hvv] at htr; simp [truthy] at htr
    | some v => exact ⟨v, rfl⟩
  refine ⟨v, hv, ?_⟩
  have hfil : r ∈ store.filter (fun r => key.isPrefixOf r.key) := by
    rw [List.mem_filter]
    exact ⟨hr, by rw [hk]; exact isPrefixOf_self key⟩
  have hflat : r ∈ (pagesOf pageSize store key).flatten := by
    rw [pagesOf, chunksListN_join]
    exact hfil
  rw [List.mem_flatten] at hflat
  obtain ⟨page, hpage, hrpage⟩ := hflat
  rw [accumulate_eq_flatten, List.mem_flatten]
  exact ⟨pageCollect key page, List.mem_map_of_mem (pageCollect key) hpage,
    mem_pageCollect_of_mem key page r hrpage hk v hv htr⟩

/-- C1: for every key with any number of object versions and delete-markers
(possibly more than 1000), after `deleteAllVersions` completes, listing the
versions of that key returns the empty set — every version and delete-marker
of the key is removed; and if the accumulated set was empty, the call issued
the listing pages followed by a single non-versioned `DeleteObject` instead
of batch deletes. -/
theorem delete_removes_all_versions_c1 (pageSize : Nat) (store : List VRecord)
    (key : JStr) (hwf : ∀ r ∈ store, truthy r.versionId = true) :
    listVersionsExact (deleteAllVersionsRun pageSize store key) key = [] ∧
      (accumulate key (pagesOf pageSize store key) = [] →
        deleteAllVersionsTrace pageSize store key =
          (pagesOf pageSize store key).map (fun _ => StoreOp.listCall) ++
            [StoreOp.deleteObject key]) := by
  constructor
  · unfold deleteAllVersionsRun deleteAllVersionsTrace
    rw [List.foldl_append, foldl_listCalls]
    by_cases hA : accumulate key (pagesOf pageSize store key) = []
    · rw [if_pos (by simp [hA])]
      simp only [List.foldl_cons, List.foldl_nil, applyOp]
      rw [listVersionsExact, List.filter_eq_nil_iff]
      intro r hrf hkey
      rw [List.mem_filter] at hrf
      obtain ⟨hrs, _⟩ := hrf
      have hk : r.key = key := by simpa using hkey
      obtain ⟨v, hv, hmem⟩ :=
        mem_accumulate_of_mem_store pageSize store key r hrs hk (hwf r hrs)
      rw [hA] at hmem
      simp at hmem
    · rw [if_neg (by simpa using hA), foldl_deleteBatches]
      rw [listVersionsExact, List.filter_eq_nil_iff]
      intro r hrf hkey
      rw [List.mem_filter] at hrf
      obtain ⟨hrs, hq⟩ := hrf
      have hk : r.key = key := by simpa using hkey
      obtain ⟨v, hv, hmem⟩ :=
        mem_accumulate_of_mem_store pageSize store key r hrs hk (hwf r hrs)
      have hflat : (key, v) ∈
          (chunksListN 999 (accumulate key (pagesOf pageSize store key))).flatten := by
        rw [chunksListN_join]
        exact hmem
      rw [List.mem_flatten] at hflat
      obtain ⟨b, hb, hvb⟩ := hflat
      have hany : (chunksListN 999 (accumulate key (pagesOf pageSize store key))).any
          (fun b => b.any (matchesPair r)) = true := by
        rw [List.any_eq_true]
        refine ⟨b, hb, ?_⟩
        rw [List.any_eq_true]
        exact ⟨(key, v), hvb, by simp [matchesPair, hk, hv]⟩
      simp [hany] at hq
  · intro hA
    simp [deleteAllVersionsTrace, hA]

theorem delete_removes_all_versions_c1_witness :
    (∀ r ∈ [VRecord.mk (s2l "a") (some (s2l "v1")) false,
            VRecord.mk (s2l "a") (some (s2l "v2")) true,
            VRecord.mk (s2l "ab") (some (s2l "v3")) false],
        truthy r.versionId = true) ∧
      (listVersionsExact
          (deleteAllVersionsRun 0
            [VRecord.mk (s2l "a") (some (s2l "v1")) false,
             VRecord.mk (s2l "a") (some (s2l "v2")) true,
             VRecord.mk (s2l "ab") (some (s2l "v3")) false] (s2l "a")) (s2l "a") = [] ∧
        (accumulate (s2l "a")
            (pagesOf 0
              [VRecord.mk (s2l "a") (some (s2l "v1")) false,
               VRecord.mk (s2l "a") (some (s2l "v2")) true,
               VRecord.mk (s2l "ab") (some (s2l "v3")) false] (s2l "a")) = [] →
          deleteAllVersionsTrace 0
              [VRecord.mk (s2l "a") (some (s2l "v1")) false,
               VRecord.mk (s2l "a") (some (s2l "v2")) true,
               VRecord.mk (s2l "ab") (some (s2l "v3")) false] (s2l "a") =
            (pagesOf 0
              [VRecord.mk (s2l "a") (some (s2l "v1")) false,
               VRecord.mk (s2l "a") (some (s2l "v2")) true,
               VRecord.mk (s2l "ab") (some (s2l "v3")) false] (s2l "a")).map
                (fun _ => StoreOp.listCall) ++ [StoreOp.deleteObject (s2l "a")])) :=
  ⟨by decide, delete_removes_all_versions_c1 0 _ _ (by decide)⟩

/-- Recognizer for `DeleteObjects` batch calls in a trace. -/
def isDeleteBatchOp : StoreOp → Bool
  | StoreOp.deleteBatch _ => true
  | _ => false

/-- C4: every `DeleteObjects` batch issued by `deleteAllVersions` carries at
most 1000 `(Key, VersionId)` pairs, no matter how many versions were
accumulated; and when more than 1000 pairs were accumulated, the work is
split into at least two batch calls. -/
theorem batch_limit_c4 (pageSize : Nat) (store : List VRecord) (key : JStr)
    (b : List (JStr × JStr))
    (hb : StoreOp.deleteBatch b ∈ deleteAllVersionsTrace pageSize store key) :
    b.length ≤ 1000 ∧
      (1000 < (accumulate key (pagesOf pageSize store key)).length →
        2 ≤ (deleteAllVersionsTrace pageSize store key).countP isDeleteBatchOp) := by
  constructor
  · rw [deleteAllVersionsTrace, List.mem_append] at hb
    rcases hb with hb | hb
    · rw [List.mem_map] at hb
      obtain ⟨_, _, heq⟩ := hb
      cases heq
    · by_cases hA : (accumulate key (pagesOf pageSize store key)).isEmpty
      · rw [if_pos hA] at hb
        simp at hb
      · rw [if_neg hA, List.mem_map] at hb
        obtain ⟨c, hc, hceq⟩ := hb
        cases hceq
        exact chunksListN_mem_length 999 _ _ hc
  · intro hlen
    have hA : (accumulate key (pagesOf pageSize store key)).isEmpty = false := by
      cases hAc : accumulate key (pagesOf pageSize store key) with
      | nil => rw [hAc] at hlen; simp at hlen
      | cons x xs => simp [hAc]
    rw [deleteAllVersionsTrace, List.countP_append]
    have h0 : ((pagesOf pageSize store key).map
        (fun _ => StoreOp.listCall)).countP isDeleteBatchOp = 0 := by
      rw [List.countP_eq_zero]
      intro a ha
      rw [List.mem_map] at ha
      obtain ⟨_, _, heq⟩ := ha
      rw [← heq]
      decide
    rw [h0, if_neg (by simp [hA])]
    have hcnt : ((chunksListN 999 (accumulate key (pagesOf pageSize store key))).map
        StoreOp.deleteBatch).countP isDeleteBatchOp =
        (chunksListN 999 (accumulate key (pagesOf pageSize store key))).length := by
      rw [List.countP_map]
      have : ∀ c ∈ chunksListN 999 (accumulate key (pagesOf pageSize store key)),
          (isDeleteBatchOp ∘ StoreOp.deleteBatch) c = true := by
        intro c _
        rfl
      calc (chunksListN 999 (accumulate key (pagesOf pageSize store key))).countP
            (isDeleteBatchOp ∘ StoreOp.deleteBatch)
          = (chunksListN 999 (accumulate key (pagesOf pageSize store key))).countP
            (fun _ => true) := List.countP_congr (fun c hc => by
              simp [Function.comp, isDeleteBatchOp])
        _ = _ := by simp [List.countP_true]
    rw [hcnt]
    by_contra hlt
    have hle : (chunksListN 999 (accumulate key (pagesOf pageSize store key))).length ≤ 1 := by
      omega
    have := chunksListN_short_of_le_one 999 _ hle
    omega

theorem batch_limit_c4_witness :
    StoreOp.deleteBatch [(s2l "a", s2l "v")] ∈
        deleteAllVersionsTrace 0 [VRecord.mk (s2l "a") (some (s2l "v")) false] (s2l "a") ∧
      ([(s2l "a", s2l "v")].length ≤ 1000 ∧
        (1000 < (accumulate (s2l "a")
            (pagesOf 0 [VRecord.mk (s2l "a") (some (s2l "v")) false] (s2l "a"))).length →
          2 ≤ (deleteAllVersionsTrace 0 [VRecord.mk (s2l "a") (some (s2l "v")) false]
            (s2l "a")).countP isDeleteBatchOp)) :=
  ⟨by decide, batch_limit_c4 0 _ _ _ (by decide)⟩

/-- If every element of `A` satisfies `p` and no element of `B` does, then in
`A ++ B` every index holding a `p`-element precedes every index holding a
non-`p`-element. -/
theorem index_lt_of_append_all (A B : List α) (p : α → Prop)
    (hA : ∀ x ∈ A, p x) (hB : ∀ x ∈ B, ¬ p x) (i j : Nat)
    (hi : i < (A ++ B).length) (hj : j < (A ++ B).length)
    (hpi : p ((A ++ B).get ⟨i, hi⟩)) (hpj : ¬ p ((A ++ B).get ⟨j, hj⟩)) :
    i < j := by
  rw [List.get_eq_getElem] at hpi hpj
  have hlen : i < A.length + B.length := by simpa using hi
  have hlenj : j < A.length + B.length := by simpa using hj
  have hilt : i < A.length := by
    by_contra hge
    push_neg at hge
    rw [List.getElem_append_right hge] at hpi
    have hiB : i - A.length < B.length := by omega
    exact hB _ (List.getElem_mem hiB) hpi
  have hjge : A.length ≤ j := by
    by_contra hlt
    push_neg at hlt
    rw [List.getElem_append_left hlt] at hpj
    exact hpj (hA _ (List.getElem_mem hlt))
  omega

/-- C5: within the deletion of one key, every `ListObjectVersions` call
precedes every `DeleteObjects` batch in the issued call sequence — the
pagination loop completes (all continuation pages are consumed) before any
delete batch is sent; the trace being a single list, the batches themselves
are issued sequentially, one after another. -/
theorem listing_before_deletes_c5 (pageSize : Nat) (store : List VRecord)
    (key : JStr) (i j : Nat)
    (hi : i < (deleteAllVersionsTrace pageSize store key).length)
    (hj : j < (deleteAllVersionsTrace pageSize store key).length)
    (hil : (deleteAllVersionsTrace pageSize store key).get ⟨i, hi⟩ = StoreOp.listCall)
    (hjd : isDeleteBatchOp ((deleteAllVersionsTrace pageSize store key).get ⟨j, hj⟩) = true) :
    i < j := by
  have hA : ∀ op ∈ (pagesOf pageSize store key).map (fun _ => StoreOp.listCall),
      op = StoreOp.listCall := by
    intro op hop
    rw [List.mem_map] at hop
    obtain ⟨_, _, heq⟩ := hop
    exact heq.symm
  have hB : ∀ op ∈ (if (accumulate key (pagesOf pageSize store key)).isEmpty
        then [StoreOp.deleteObject key]
        else (chunksListN 999 (accumulate key (pagesOf pageSize store key))).map
          StoreOp.deleteBatch),
      ¬ op = StoreOp.listCall := by
    intro op hop
    split at hop
    · simp at hop
      subst hop
      simp
    · rw [List.mem_map] at hop
      obtain ⟨c, _, heq⟩ := hop
      subst heq
      simp
  have hpj : ¬ ((deleteAllVersionsTrace pageSize store key).get ⟨j, hj⟩ =
      StoreOp.listCall) := by
    intro heq
    rw [heq] at hjd
    cases hjd
  exact index_lt_of_append_all _ _ (fun op => op = StoreOp.listCall) hA hB i j hi hj hil hpj

theorem listing_before_deletes_c5_witness :
    ((deleteAllVersionsTrace 0 [VRecord.mk (s2l "a") (some (s2l "v")) false]
        (s2l "a")).get ⟨0, by decide⟩ = StoreOp.listCall) ∧
      (isDeleteBatchOp ((deleteAllVersionsTrace 0
        [VRecord.mk (s2l "a") (some (s2l "v")) false]
        (s2l "a")).get ⟨1, by decide⟩) = true) ∧ (0 : Nat) < 1 :=
  ⟨by decide, by decide,
    listing_before_deletes_c5 0 [VRecord.mk (s2l "a") (some (s2l "v")) false] (s2l "a")
      0 1 (by decide) (by decide) (by decide) (by decide)⟩

/-- C6: during the deletion of key `K`, only records whose key exactly equals
`K` are accumulated for deletion (every accumulated pair names `K`), and any
record of a different key `K'` — in particular one that merely has `K` as a
prefix and is therefore returned by the prefix-based listing — survives the
whole deletion untouched. -/
theorem exact_match_filter_c6 (pageSize : Nat) (store : List VRecord) (key : JStr)
    (r : VRecord) (hr : r ∈ store) (hk : r.key ≠ key) :
    (∀ pr ∈ accumulate key (pagesOf pageSize store key), pr.1 = key) ∧
      r ∈ deleteAllVersionsRun pageSize store key := by
  refine ⟨accumulate_fst key _, ?_⟩
  unfold deleteAllVersionsRun deleteAllVersionsTrace
  rw [List.foldl_append, foldl_listCalls]
  have hbeq : (r.key == key) = false := by
    rw [beq_eq_false_iff_ne]
    exact hk
  by_cases hA : (accumulate key (pagesOf pageSize store key)).isEmpty
  · rw [if_pos hA]
    simp only [List.foldl_cons, List.foldl_nil, applyOp]
    rw [List.mem_filter]
    exact ⟨hr, by simp [hbeq]⟩
  · rw [if_neg hA, foldl_deleteBatches, List.mem_filter]
    refine ⟨hr, ?_⟩
    have hany : (chunksListN 999 (accumulate key (pagesOf pageSize store key))).any
        (fun b => b.any (matchesPair r)) = false := by
      rw [List.any_eq_false]
      intro b hb
      rw [Bool.not_eq_true, List.any_eq_false]
      intro pr hpr
      have hfst : pr.1 = key := by
        apply accumulate_fst key (pagesOf pageSize store key)
        have hfl : pr ∈ (chunksListN 999
            (accumulate key (pagesOf pageSize store key))).flatten :=
          List.mem_flatten.mpr ⟨b, hb, hpr⟩
        rwa [chunksListN_join] at hfl
      have hbeq2 : (key == r.key) = false := by
        rw [beq_eq_false_iff_ne]
        exact fun h => hk h.symm
      simp [matchesPair, hfst, hbeq2]
    simp [hany]

theorem exact_match_filter_c6_witness :
    VRecord.mk (s2l "ab") (some (s2l "v3")) false ∈
        [VRecord.mk (s2l "ab") (some (s2l "v3")) false,
         VRecord.mk (s2l "a") (some (s2l "v1")) false] ∧
      (VRecord.mk (s2l "ab") (some (s2l "v3")) false).key ≠ s2l "a" ∧
      ((∀ pr ∈ accumulate (s2l "a")
          (pagesOf 0 [VRecord.mk (s2l "ab") (some (s2l "v3")) false,
            VRecord.mk (s2l "a") (some (s2l "v1")) false] (s2l "a")), pr.1 = s2l "a") ∧
        VRecord.mk (s2l "ab") (some (s2l "v3")) false ∈
          deleteAllVersionsRun 0 [VRecord.mk (s2l "ab") (some (s2l "v3")) false,
            VRecord.mk (s2l "a") (some (s2l "v1")) false] (s2l "a")) :=
  ⟨by decide, by decide,
    exact_match_filter_c6 0 [VRecord.mk (s2l "ab") (some (s2l "v3")) false,
      VRecord.mk (s2l "a") (some (s2l "v1")) false] (s2l "a")
      (VRecord.mk (s2l "ab") (some (s2l "v3")) false) (by decide) (by decide)⟩

/-- The environment configuration read by `createStorjClient`
(`Deno.env.get` returns a string or `undefined`). -/
structure Config where
  accessKeyId : Option JStr
  secretAccessKey : Option JStr
deriving DecidableEq, Repr

/-- The request body parsed by `serve`
(`{ operation, filePath, files, fileData, contentType, size, bucket }`);
fields irrelevant to an operation are simply unused, as in the source. -/
structure ProxyRequest where
  operation : JStr
  filePath : JStr
  files : List JStr
  fileData : List Nat
  contentType : JStr
  size : Nat
deriving DecidableEq, Repr

/-- Response body shapes produced by `serve`. -/
inductive Body where
  | success : Body
  | successData : List Nat → Body
  | successUrl : Body
  | error : JStr → Body
deriving DecidableEq, Repr

/-- An HTTP response of the proxy: status code and JSON body shape. -/
structure ProxyResponse where
  status : Nat
  body : Body
deriving DecidableEq, Repr

/-- The error message thrown by `createStorjClient` when a credential is
missing (truncated to its lead; the text is irrelevant to the claims). -/
def credErrorMsg : JStr := s2l "Storj credentials not configured"

/-- The trace of backing-store calls of the `delete-multiple` case: the full
per-key `deleteAllVersions` runs sequentially, each against the store left by
the previous one. -/
def deleteMultipleTrace (pageSize : Nat) (store : List VRecord) :
    List JStr → List StoreOp
  | [] => []
  | k :: rest =>
    let t := deleteAllVersionsTrace pageSize store k
    t ++ deleteMultipleTrace pageSize (t.foldl applyOp store) rest

/-- The proxy's `serve` handler (non-preflight path), modelled as a pure
function from configuration, store contents and request to the HTTP response
plus the trace of calls issued to the backing store.  `createStorjClient`
runs before the dispatch; a missing credential throws, and the outer catch
converts the error to a 500 `{error}` response with no store call made.
The `switch (operation)` cases follow the source order. -/
def serveOps (cfg : Config) (pageSize : Nat) (store : List VRecord)
    (req : ProxyRequest) : ProxyResponse × List StoreOp :=
  if truthy cfg.accessKeyId = false ∨ truthy cfg.secretAccessKey = false then
    (ProxyResponse.mk 500 (Body.error credErrorMsg), [])
  else if req.operation = s2l "upload" then
    (ProxyResponse.mk 200 Body.success,
      [StoreOp.putObject req.filePath (base64DecodeCore req.fileData)])
  else if req.operation = s2l "download" then
    (ProxyResponse.mk 200 (Body.successData []), [StoreOp.getObject req.filePath])
  else if req.operation = s2l "delete" then
    (ProxyResponse.mk 200 Body.success, deleteAllVersionsTrace pageSize store req.filePath)
  else if req.operation = s2l "delete-multiple" then
    (ProxyResponse.mk 200 Body.success, deleteMultipleTrace pageSize store req.files)
  else if req.operation = s2l "get-download-url" then
    (ProxyResponse.mk 200 Body.successUrl, [StoreOp.presign req.filePath])
  else
    (ProxyResponse.mk 400 (Body.error (s2l "Invalid operation")), [])

/-- C8: a request whose `operation` is outside the closed set
{upload, download, get-download-url, delete, delete-multiple} gets an
`{error: message}` body with a non-2xx status — 400 when credentials are
present — and no backing-store call is issued. -/
theorem invalid_operation_c8 (cfg : Config) (pageSize : Nat)
    (store : List VRecord) (req : ProxyRequest)
    (hop : req.operation ∉ [s2l "upload", s2l "download", s2l "get-download-url",
      s2l "delete", s2l "delete-multiple"]) :
    (∃ msg, (serveOps cfg pageSize store req).1.body = Body.error msg) ∧
      (serveOps cfg pageSize store req).1.status ≠ 200 ∧
      400 ≤ (serveOps cfg pageSize store req).1.status ∧
      (serveOps cfg pageSize store req).2 = [] ∧
      (truthy cfg.accessKeyId = true → truthy cfg.secretAccessKey = true →
        (serveOps cfg pageSize store req).1.status = 400) := by
  simp only [List.mem_cons, not_or] at hop
  obtain ⟨h1, h2, h3, h4, h5, _⟩ := hop
  unfold serveOps
  by_cases hcred : truthy cfg.accessKeyId = false ∨ truthy cfg.secretAccessKey = false
  · rw [if_pos hcred]
    refine ⟨⟨credErrorMsg, rfl⟩, by decide, by decide, rfl, ?_⟩
    intro ha hs
    rcases hcred with hc | hc
    · rw [ha] at hc; cases hc
    · rw [hs] at hc; cases hc
  · rw [if_neg hcred, if_neg h1, if_neg h2, if_neg h4, if_neg h5, if_neg h3]
    exact ⟨⟨s2l "Invalid operation", rfl⟩, by decide, by decide, rfl, fun _ _ => rfl⟩

theorem invalid_operation_c8_witness :
    (s2l "frobnicate") ∉ [s2l "upload", s2l "download", s2l "get-download-url",
        s2l "delete", s2l "delete-multiple"] ∧
      ((∃ msg, (serveOps (Config.mk (some (s2l "id")) (some (s2l "sk"))) 0 []
          (ProxyRequest.mk (s2l "frobnicate") (s2l "f") [] [] (s2l "t") 0)).1.body =
            Body.error msg) ∧
        (serveOps (Config.mk (some (s2l "id")) (some (s2l "sk"))) 0 []
          (ProxyRequest.mk (s2l "frobnicate") (s2l "f") [] [] (s2l "t") 0)).2 = []) := by
  refine ⟨by decide, ?_⟩
  have h := invalid_operation_c8 (Config.mk (some (s2l "id")) (some (s2l "sk"))) 0 []
    (ProxyRequest.mk (s2l "frobnicate") (s2l "f") [] [] (s2l "t") 0) (by decide)
  exact ⟨h.1, h.2.2.2.1⟩

/-- C9: when either credential is missing (or empty, hence falsy), every
request — whatever its operation — fails with the configuration error as a
500 `{error}` response before any call to the backing store is issued. -/
theorem missing_credentials_c9 (cfg : Config) (pageSize : Nat)
    (store : List VRecord) (req : ProxyRequest)
    (hcred : truthy cfg.accessKeyId = false ∨ truthy cfg.secretAccessKey = false) :
    serveOps cfg pageSize store req =
      (ProxyResponse.mk 500 (Body.error credErrorMsg), []) := by
  unfold serveOps
  rw [if_pos hcred]

theorem missing_credentials_c9_witness :
    (truthy (Config.mk none (some (s2l "sk"))).accessKeyId = false ∨
        truthy (Config.mk none (some (s2l "sk"))).secretAccessKey = false) ∧
      serveOps (Config.mk none (some (s2l "sk"))) 0 []
          (ProxyRequest.mk (s2l "delete") (s2l "f") [] [] (s2l "t") 0) =
        (ProxyResponse.mk 500 (Body.error credErrorMsg), []) :=
  ⟨Or.inl rfl, missing_credentials_c9 (Config.mk none (some (s2l "sk"))) 0 []
    (ProxyRequest.mk (s2l "delete") (s2l "f") [] [] (s2l "t") 0) (Or.inl rfl)⟩

/-- Outcome of the `delete-multiple` loop: final store contents, the keys
whose deletion ran to completion, and whether the call succeeds. -/
structure MultiResult where
  store : List VRecord
  processed : List JStr
  ok : Bool
deriving DecidableEq, Repr

/-- The `delete-multiple` loop
`for (const path of files) { await deleteAllVersions(client, bucketName, path); }`
over a store in which `deleteAllVersions` may fail: `fails k = true` models
the per-key deletion throwing (e.g. its version listing rejects with a store
error, before any mutation for that key).  There is no per-key `try/catch`,
so the exception propagates out of the loop to the outer handler: the
remaining keys are never attempted and the call reports failure. -/
def deleteMultipleRun (fails : JStr → Bool) (pageSize : Nat) (store : List VRecord) :
    List JStr → MultiResult
  | [] => MultiResult.mk store [] true
  | k :: rest =>
    if fails k then MultiResult.mk store [] false
    else
      let r := deleteMultipleRun fails pageSize (deleteAllVersionsRun pageSize store k) rest
      MultiResult.mk r.store (k :: r.processed) r.ok

/-- Store contents after running the full per-key deletion for each key in
order (the successful path of the `delete-multiple` loop). -/
def runKeys (pageSize : Nat) (store : List VRecord) (keys : List JStr) : List VRecord :=
  keys.foldl (fun s k => deleteAllVersionsRun pageSize s k) store

/-- C3 counterexample: with two keys where the first key's deletion fails,
the `delete-multiple` loop aborts — the second key is never processed and its
version survives — refuting the claim that a failure on one key does not
abort processing of the subsequent keys. -/
theorem delete_multiple_c3_counterexample :
    (deleteMultipleRun (fun k => k == s2l "a") 0
        [VRecord.mk (s2l "a") (some (s2l "v1")) false,
         VRecord.mk (s2l "b") (some (s2l "v2")) false]
        [s2l "a", s2l "b"]).ok = false ∧
      (deleteMultipleRun (fun k => k == s2l "a") 0
        [VRecord.mk (s2l "a") (some (s2l "v1")) false,
         VRecord.mk (s2l "b") (some (s2l "v2")) false]
        [s2l "a", s2l "b"]).processed = [] ∧
      listVersionsExact (deleteMultipleRun (fun k => k == s2l "a") 0
        [VRecord.mk (s2l "a") (some (s2l "v1")) false,
         VRecord.mk (s2l "b") (some (s2l "v2")) false]
        [s2l "a", s2l "b"]).store (s2l "b") =
        [VRecord.mk (s2l "b") (some (s2l "v2")) false] := by
  decide

/-- C3 (amended): the `delete-multiple` loop runs the version-complete
deletion sequentially per key; when a key fails, the loop aborts — the keys
before the failing one are fully processed and their deletions persist, the
keys after it are never attempted — and the overall call reports failure. -/
theorem delete_multiple_c3_amended (fails : JStr → Bool) (pageSize : Nat)
    (store : List VRecord) (pre : List JStr) (k : JStr) (post : List JStr)
    (hpre : ∀ q ∈ pre, fails q = false) (hk : fails k = true) :
    (deleteMultipleRun fails pageSize store (pre ++ k :: post)).ok = false ∧
      (deleteMultipleRun fails pageSize store (pre ++ k :: post)).processed = pre ∧
      (deleteMultipleRun fails pageSize store (pre ++ k :: post)).store =
        runKeys pageSize store pre := by
  induction pre generalizing store with
  | nil =>
    simp [deleteMultipleRun, hk, runKeys]
  | cons q qs ih =>
    have hq : fails q = false := hpre q (by simp)
    have hrest : ∀ x ∈ qs, fails x = false := fun x hx => hpre x (by simp [hx])
    have h := ih (deleteAllVersionsRun pageSize store q) hrest
    simp only [List.cons_append, deleteMultipleRun, hq, Bool.false_eq_true, if_false]
    exact ⟨h.1, by simp [h.2.1], by simp [h.2.2, runKeys, List.foldl_cons]⟩

theorem delete_multiple_c3_amended_witness :
    (∀ q ∈ [s2l "b"], (fun k => k == s2l "a") q = false) ∧
      ((fun k => k == s2l "a") (s2l "a") = true) ∧
      ((deleteMultipleRun (fun k => k == s2l "a") 0
          [VRecord.mk (s2l "a") (some (s2l "v1")) false,
           VRecord.mk (s2l "b") (some (s2l "v2")) false]
          ([s2l "b"] ++ s2l "a" :: [s2l "c"])).ok = false ∧
        (deleteMultipleRun (fun k => k == s2l "a") 0
          [VRecord.mk (s2l "a") (some (s2l "v1")) false,
           VRecord.mk (s2l "b") (some (s2l "v2")) false]
          ([s2l "b"] ++ s2l "a" :: [s2l "c"])).processed = [s2l "b"] ∧
        (deleteMultipleRun (fun k => k == s2l "a") 0
          [VRecord.mk (s2l "a") (some (s2l "v1")) false,
           VRecord.mk (s2l "b") (some (s2l "v2")) false]
          ([s2l "b"] ++ s2l "a" :: [s2l "c"])).store =
          runKeys 0 [VRecord.mk (s2l "a") (some (s2l "v1")) false,
            VRecord.mk (s2l "b") (some (s2l "v2")) false] [s2l "b"]) :=
  ⟨by decide, by decide,
    delete_multiple_c3_amended (fun k => k == s2l "a") 0
      [VRecord.mk (s2l "a") (some (s2l "v1")) false,
       VRecord.mk (s2l "b") (some (s2l "v2")) false]
      [s2l "b"] (s2l "a") [s2l "c"] (by decide) (by decide)⟩

/-- Chunk start offsets `i = 0, 65536, 131072, ...` visited by the encode
loop of `storjService.uploadFile` on a buffer of `len` bytes. -/
def chunkStarts (len : Nat) : List Nat :=
  (List.range ((len + 65535) / 65536)).map (fun j => j * 65536)

/-- One iteration of the throttled progress report in the encode loop of
`uploadFile`: `progress = Math.floor((i / len) * 50)` (exact rational floor,
`i * 50 / len` in integers), reported only when it exceeds the last reported
value by at least 5.  The accumulator is (reported values, lastReportedProgress),
with `lastReportedProgress` starting at `-1`. -/
def uploadStep (len : Nat) (acc : List Int × Int) (i : Nat) : List Int × Int :=
  let progress : Int := ((i * 50 / len : Nat) : Int)
  if 5 ≤ progress - acc.2 then (acc.1 ++ [progress], progress) else acc

/-- The values passed to `onProgress` during the 64KB encode loop of
`uploadFile`. -/
def uploadLoopReports (len : Nat) : List Int :=
  ((chunkStarts len).foldl (uploadStep len) ([], -1)).1

/-- All values passed to `onProgress` by `uploadFile` in order: the throttled
encode-loop reports, then the unconditional `onProgress(50)` after `btoa`,
then the unconditional `onProgress(100)` after the proxy call returns. -/
def uploadProgressValues (len : Nat) : List Int :=
  uploadLoopReports len ++ [50, 100]

/-- One chunk arrival in the streamed-fetch loop of
`storjService.downloadFile`: `received += value.length`, and when the
`Content-Length` total is nonzero the loop reports
`Math.min(99, Math.floor((received / total) * 100))`. -/
def downloadStep (total : Nat) (acc : List Nat × Nat) (c : Nat) : List Nat × Nat :=
  let received := acc.2 + c
  if total = 0 then (acc.1, received)
  else (acc.1 ++ [min 99 (received * 100 / total)], received)

/-- The values passed to `onProgress` during the streamed-fetch loop of
`downloadFile`, for chunk sizes `chunks` and header total `total`. -/
def downloadLoopReports (total : Nat) (chunks : List Nat) : List Nat :=
  (chunks.foldl (downloadStep total) ([], 0)).1

/-- All values passed to `onProgress` by `downloadFile` on the streamed path:
the per-chunk capped percentages, then the final `onProgress(100)` after the
blob is assembled. -/
def downloadProgressValues (total : Nat) (chunks : List Nat) : List Nat :=
  downloadLoopReports total chunks ++ [100]

theorem mem_of_getLast? {l : List α} {x : α} (hx : x ∈ l.getLast?) : x ∈ l := by
  obtain ⟨h, heq⟩ := List.mem_getLast?_eq_getLast hx
  rw [heq]
  exact List.getLast_mem h

theorem uploadFold_inv (len : Nat) :
    ∀ (is : List Nat) (acc : List Int × Int),
      (∀ i ∈ is, i < len) →
      List.Chain' (· ≤ ·) acc.1 →
      (∀ x ∈ acc.1, 0 ≤ x ∧ x ≤ acc.2) →
      -1 ≤ acc.2 → acc.2 ≤ 49 →
      List.Chain' (· ≤ ·) (is.foldl (uploadStep len) acc).1 ∧
        (∀ x ∈ (is.foldl (uploadStep len) acc).1,
          0 ≤ x ∧ x ≤ (is.foldl (uploadStep len) acc).2) ∧
        -1 ≤ (is.foldl (uploadStep len) acc).2 ∧
        (is.foldl (uploadStep len) acc).2 ≤ 49 := by
  intro is
  induction is with
  | nil =>
    intro acc _ hch hbd hlo hhi
    exact ⟨hch, hbd, hlo, hhi⟩
  | cons i rest ih =>
    intro acc hlt hch hbd hlo hhi
    have hi : i < len := hlt i (by simp)
    have hlen : 0 < len := by omega
    have hpnat : i * 50 / len < 50 := by
      rw [Nat.div_lt_iff_lt_mul hlen]
      omega
    simp only [List.foldl_cons]
    by_cases hrep : (5 : Int) ≤ ((i * 50 / len : Nat) : Int) - acc.2
    · have hstep : uploadStep len acc i =
          (acc.1 ++ [((i * 50 / len : Nat) : Int)], ((i * 50 / len : Nat) : Int)) := by
        simp only [uploadStep]
        rw [if_pos hrep]
      rw [hstep]
      apply ih
      · exact fun x hx => hlt x (by simp [hx])
      · rw [List.chain'_append]
        refine ⟨hch, List.chain'_singleton _, ?_⟩
        intro x hx y hy
        simp only [List.head?_cons, Option.mem_def, Option.some.injEq] at hy
        subst hy
        obtain ⟨hx0, hx2⟩ := hbd x (mem_of_getLast? hx)
        omega
      · intro x hx
        rw [List.mem_append] at hx
        rcases hx with hx | hx
        · obtain ⟨hx0, hx2⟩ := hbd x hx
          exact ⟨hx0, by omega⟩
        · simp only [List.mem_singleton] at hx
          subst hx
          exact ⟨by omega, le_refl _⟩
      · omega
      · omega
    · have hstep : uploadStep len acc i = acc := by
        simp only [uploadStep]
        rw [if_neg hrep]
      rw [hstep]
      exact ih acc (fun x hx => hlt x (by simp [hx])) hch hbd hlo hhi

theorem downloadFold_keeps_nil :
    ∀ (chunks : List Nat) (acc : List Nat × Nat),
      (chunks.foldl (downloadStep 0) acc).1 = acc.1 := by
  intro chunks
  induction chunks with
  | nil => intro acc; rfl
  | cons c rest ih =>
    intro acc
    simp only [List.foldl_cons, downloadStep, if_pos rfl]
    exact ih _

theorem downloadFold_inv (total : Nat) (htot : 0 < total) :
    ∀ (chunks : List Nat) (acc : List Nat × Nat),
      List.Chain' (· ≤ ·) acc.1 →
      (∀ x ∈ acc.1, x ≤ min 99 (acc.2 * 100 / total)) →
      List.Chain' (· ≤ ·) (chunks.foldl (downloadStep total) acc).1 ∧
        (∀ x ∈ (chunks.foldl (downloadStep total) acc).1,
          x ≤ min 99 ((chunks.foldl (downloadStep total) acc).2 * 100 / total)) := by
  intro chunks
  induction chunks with
  | nil =>
    intro acc hch hbd
    exact ⟨hch, hbd⟩
  | cons c rest ih =>
    intro acc hch hbd
    have hstep : downloadStep total acc c =
        (acc.1 ++ [min 99 ((acc.2 + c) * 100 / total)], acc.2 + c) := by
      simp only [downloadStep]
      rw [if_neg (by omega)]
    have hmono : min 99 (acc.2 * 100 / total) ≤ min 99 ((acc.2 + c) * 100 / total) :=
      min_le_min (le_refl 99) (Nat.div_le_div_right (by omega))
    simp only [List.foldl_cons]
    rw [hstep]
    apply ih
    · rw [List.chain'_append]
      refine ⟨hch, List.chain'_singleton _, ?_⟩
      intro x hx y hy
      simp only [List.head?_cons, Option.mem_def, Option.some.injEq] at hy
      subst hy
      exact le_trans (hbd x (mem_of_getLast? hx)) hmono
    · intro x hx
      rw [List.mem_append] at hx
      rcases hx with hx | hx
      · exact le_trans (hbd x hx) hmono
      · simp only [List.mem_singleton] at hx
        subst hx
        exact le_refl _

theorem chunkStarts_lt (len : Nat) : ∀ i ∈ chunkStarts len, i < len := by
  intro i hi
  simp only [chunkStarts, List.mem_map, List.mem_range] at hi
  obtain ⟨j, hj, rfl⟩ := hi
  omega

/-- C7: the values passed to the progress callback by the client agent are
non-decreasing and stay within [0, 100] for both transfer directions, and the
final reported value of a successful transfer is exactly 100 — for
`uploadFile` (throttled encode-loop reports, then 50, then 100) and for the
streamed-fetch path of `downloadFile` (per-chunk capped percentages, then
100). -/
theorem progress_monotone_c7 (len total : Nat) (chunks : List Nat) :
    (List.Chain' (· ≤ ·) (uploadProgressValues len) ∧
      (∀ x ∈ uploadProgressValues len, 0 ≤ x ∧ x ≤ 100) ∧
      (uploadProgressValues len).getLast? = some 100) ∧
    (List.Chain' (· ≤ ·) (downloadProgressValues total chunks) ∧
      (∀ x ∈ downloadProgressValues total chunks, x ≤ 100) ∧
      (downloadProgressValues total chunks).getLast? = some 100) := by
  have hinv := uploadFold_inv len (chunkStarts len) ([], -1) (chunkStarts_lt len)
    (by simp) (by simp) (by norm_num) (by norm_num)
  constructor
  · refine ⟨?_, ?_, ?_⟩
    · rw [uploadProgressValues, List.chain'_append]
      refine ⟨hinv.1, ?_, ?_⟩
      · norm_num [List.chain'_cons, List.chain'_singleton]
      · intro x hx y hy
        simp only [List.head?_cons, Option.mem_def, Option.some.injEq] at hy
        subst hy
        have := (hinv.2.1 x (mem_of_getLast? hx)).2
        have := hinv.2.2.2
        omega
    · intro x hx
      rw [uploadProgressValues, List.mem_append] at hx
      rcases hx with hx | hx
      · have h1 := (hinv.2.1 x hx).1
        have h2 := (hinv.2.1 x hx).2
        have := hinv.2.2.2
        exact ⟨h1, by omega⟩
      · simp only [List.mem_cons, List.mem_singleton] at hx
        rcases hx with hx | hx
        · subst hx; norm_num
        · simp at hx; subst hx; norm_num
    · rw [uploadProgressValues, List.getLast?_append_of_ne_nil]
      · rfl
      · simp
  · cases htot : total with
    | zero =>
      have hz : downloadLoopReports 0 chunks = [] := by
        rw [downloadLoopReports, downloadFold_keeps_nil]
      refine ⟨?_, ?_, ?_⟩
      · rw [downloadProgressValues, hz]
        simp
      · intro x hx
        rw [downloadProgressValues, hz] at hx
        simp at hx
        omega
      · rw [downloadProgressValues, hz]
        rfl
    | succ t =>
      have hdinv := downloadFold_inv (t + 1) (by omega) chunks ([], 0) (by simp) (by simp)
      refine ⟨?_, ?_, ?_⟩
      · rw [downloadProgressValues, List.chain'_append]
        refine ⟨hdinv.1, List.chain'_singleton _, ?_⟩
        intro x hx y hy
        simp only [List.head?_cons, Option.mem_def, Option.some.injEq] at hy
        subst hy
        have := hdinv.2 x (mem_of_getLast? hx)
        omega
      · intro x hx
        rw [downloadProgressValues, List.mem_append] at hx
        rcases hx with hx | hx
        · have := hdinv.2 x hx
          omega
        · simp at hx
          omega
      · rw [downloadProgressValues, List.getLast?_append_of_ne_nil]
        · rfl
        · simp

/-- Observable events of one `storjService.uploadFile` call, in program
order: progress callbacks, the proxy invocation, and termination by return
or thrown error. -/
inductive ClientEvent where
  | progress : Int → ClientEvent
  | invokeProxy : ClientEvent
  | threw : ClientEvent
  | returned : ClientEvent
deriving DecidableEq, Repr

/-- The event sequence of `uploadFile` on a buffer of `len` bytes:
the throttled encode-loop reports, `onProgress(50)` after `btoa`, the
`supabase.functions.invoke` call, then the unconditional `onProgress(100)`,
and only then the checks `if (error) throw error` and
`if (!data?.success) throw ...`. -/
def uploadFileEvents (len : Nat) (invokeError : Bool) (respSuccess : Bool) :
    List ClientEvent :=
  (uploadLoopReports len).map ClientEvent.progress ++
    [ClientEvent.progress 50, ClientEvent.invokeProxy, ClientEvent.progress 100] ++
    (if invokeError then [ClientEvent.threw]
     else if respSuccess then [ClientEvent.returned] else [ClientEvent.threw])

/-- C10: when the proxy call returns an error, `uploadFile` still invokes the
progress callback with 100 before throwing — the event sequence ends with
`progress 100` immediately followed by the throw. -/
theorem upload_progress_before_error_c10 (len : Nat) (respSuccess : Bool) :
    ∃ pre, uploadFileEvents len true respSuccess =
      pre ++ [ClientEvent.progress 100, ClientEvent.threw] := by
  refine ⟨(uploadLoopReports len).map ClientEvent.progress ++
    [ClientEvent.progress 50, ClientEvent.invokeProxy], ?_⟩
  simp [uploadFileEvents]

/-- The progress values embedded in the `uploadFile` event sequence are
exactly `uploadProgressValues` (glue between the C7 and C10 models),
whatever the outcome of the call. -/
theorem uploadFileEvents_progress (len : Nat) (invokeError respSuccess : Bool) :
    (uploadFileEvents len invokeError respSuccess).filterMap
      (fun ev => match ev with
        | ClientEvent.progress v => some v
        | _ => none) = uploadProgressValues len := by
  have hsome : ∀ l : List Int,
      l.filterMap ((fun ev => match ev with
        | ClientEvent.progress v => some v
        | _ => none) ∘ ClientEvent.progress) = l := by
    intro l
    induction l with
    | nil => rfl
    | cons v vs ih => simp only [List.filterMap_cons, Function.comp]; rw [ih]
  cases invokeError <;> cases respSuccess <;>
    simp [uploadFileEvents, uploadProgressValues, List.filterMap_append,
      List.filterMap_map, List.filterMap_cons, Function.comp] <;>
    exact hsome _
